import Mathlib

/-!
# Verification of the gaxy Google-Analytics reverse proxy

Shallow embedding of the core of the `duyet/gaxy` proxy (Go) and proofs
about its claims.  Go byte strings are modelled as `List Char`, where each
list element stands for one byte (bytes `0x80`-`0xFF` are represented by the
code points `0x80`-`0xFF`).  All checks performed by the embedded code are
either ASCII-specific or byte-uniform, so this representation is faithful.

Embedded code:
* `pkg/proxy/validator.go` : `sanitizeRequestURI`, `isAllowedPath`
* `net/url` (Go standard library, as called by the validator): `Parse`
* `path/filepath` (Go standard library): `Match`, `Base`
* `pkg/cache/cache.go` : `Get`, `Set`, `evictOldest`
* `pkg/ratelimit/ratelimit.go` : `Allow`
* `pkg/proxy/client.go` : `Client.Do`, `shouldRetry`
* `pkg/proxy/service.go` : `Service.ProxyRequest`, `isCacheable`
* `pkg/handler/handler.go` : `Handler.Proxy` (status mapping)

Machine integers are modelled as `Int`/`Nat` (no overflow is reachable for
the quantities involved: byte-lengths and counters), `float64` token counts
are modelled as exact rationals, and wall-clock instants are explicit
numeric parameters threaded through the state-passing embedding.
-/

set_option autoImplicit false
set_option synthInstance.maxHeartbeats 400000

namespace Gaxy

/-! ## Go byte-string model -/

/-- A Go string: a list of bytes, each represented by one `Char`. -/
abbrev GoStr := List Char

/-- Literal Go strings (ASCII literals only are used). -/
def gs (s : String) : GoStr := s.data

/-- Go `strings.HasPrefix s pre`. -/
def goStartsWith (s pre : GoStr) : Bool := pre.isPrefixOf s

/-- Go `strings.HasSuffix s suf`. -/
def goEndsWith (s suf : GoStr) : Bool := suf.isSuffixOf s

/-- Go `strings.Contains s sub`. -/
def goContains : GoStr → GoStr → Bool
  | s@(_ :: tail), sub => sub.isPrefixOf s || goContains tail sub
  | [], sub => sub.isEmpty

/-- Go `strings.Cut s (string c)`: splits at the first occurrence of the
byte `c`, returning `(before, after, found)`. -/
def goCut : GoStr → Char → GoStr × GoStr × Bool
  | [], _ => ([], [], false)
  | x :: xs, c =>
    if x = c then ([], xs, true)
    else
      let r := goCut xs c
      (x :: r.1, r.2.1, r.2.2)

/-- Go `strings.IndexByte s c` (as `Option`). -/
def goIndexChar : GoStr → Char → Option Nat
  | [], _ => none
  | x :: xs, c =>
    if x = c then some 0
    else (goIndexChar xs c).map (· + 1)

/-- Go `strings.LastIndexByte s c` (as `Option`). -/
def goLastIndexChar (s : GoStr) (c : Char) : Option Nat :=
  match s with
  | [] => none
  | x :: xs =>
    match goLastIndexChar xs c with
    | some i => some (i + 1)
    | none => if x = c then some 0 else none

/-- Go `strings.Index s sub` (as `Option`): first index where `sub` occurs. -/
def goIndexSub : GoStr → GoStr → Option Nat
  | s@(_ :: tail), sub =>
    if sub.isPrefixOf s then some 0
    else (goIndexSub tail sub).map (· + 1)
  | [], sub => if sub.isEmpty then some 0 else none

/-- ASCII lower-casing of one byte (Go `strings.ToLower` restricted to
ASCII; the only strings lower-cased by the embedded code are URL schemes,
which `getScheme` guarantees to be ASCII). -/
def asciiLower (c : Char) : Char :=
  if 'A' ≤ c ∧ c ≤ 'Z' then Char.ofNat (c.toNat + 32) else c

/-- Go `strings.ToLower` (ASCII-exact). -/
def goToLower (s : GoStr) : GoStr := s.map asciiLower

/-! ## Go `net/url.Parse` -/

/-- `net/url.stringContainsCTLByte`. -/
def containsCTLByte (s : GoStr) : Bool :=
  s.any fun c => c.toNat < 0x20 ∨ c.toNat = 0x7f

/-- `net/url.ishex`. -/
def ishex (c : Char) : Bool :=
  ('0' ≤ c ∧ c ≤ '9') ∨ ('a' ≤ c ∧ c ≤ 'f') ∨ ('A' ≤ c ∧ c ≤ 'F')

/-- `net/url.unhex`. -/
def unhex (c : Char) : Nat :=
  if '0' ≤ c ∧ c ≤ '9' then c.toNat - '0'.toNat
  else if 'a' ≤ c ∧ c ≤ 'f' then c.toNat - 'a'.toNat + 10
  else if 'A' ≤ c ∧ c ≤ 'F' then c.toNat - 'A'.toNat + 10
  else 0

/-- Escaping modes of `net/url.unescape` used by the embedded code. -/
inductive EncMode | path | frag | host | zone | userPwd
deriving DecidableEq

/-- `net/url.shouldEscape c encodeHost` (identical for `encodeZone`):
which raw bytes are invalid inside a host component. -/
def shouldEscapeHost (c : Char) : Bool :=
  ¬(('a' ≤ c ∧ c ≤ 'z') ∨ ('A' ≤ c ∧ c ≤ 'Z') ∨ ('0' ≤ c ∧ c ≤ '9') ∨
    c ∈ ['!', '$', '&', '\'', '(', ')', '*', '+', ',', ';', '=', ':',
         '[', ']', '<', '>', '"'] ∨
    c ∈ ['-', '_', '.', '~'])

/-- `net/url.unescape`: percent-decoding with mode-specific validity
checks.  `none` models the Go error return.  (`'+'` is kept verbatim: the
query-component mode is never used by the embedded code.) -/
def unescapeGo (mode : EncMode) : GoStr → Option GoStr
  | [] => some []
  | c :: rest =>
    if c = '%' then
      match rest with
      | h1 :: h2 :: rest' =>
        if ishex h1 ∧ ishex h2 then
          let v := unhex h1 * 16 + unhex h2
          if mode = .host ∧ unhex h1 < 8 ∧ ¬(h1 = '2' ∧ h2 = '5') then none
          else if mode = .zone ∧ ¬(h1 = '2' ∧ h2 = '5') ∧ v ≠ 32 ∧
              shouldEscapeHost (Char.ofNat v) then none
          else (unescapeGo mode rest').map (Char.ofNat v :: ·)
        else none
      | _ => none
    else if (mode = .host ∨ mode = .zone) ∧ c.toNat < 0x80 ∧
        shouldEscapeHost c then none
    else (unescapeGo mode rest).map (c :: ·)

/-- `net/url.validOptionalPort`. -/
def validOptionalPort (port : GoStr) : Bool :=
  match port with
  | [] => true
  | c :: rest => c = ':' ∧ rest.all fun b => '0' ≤ b ∧ b ≤ '9'

/-- `net/url.parseHost`. Returns the unescaped host or `none` on error. -/
def parseHost (host : GoStr) : Option GoStr :=
  if goStartsWith host (gs "[") then
    match goLastIndexChar host ']' with
    | none => none
    | some i =>
      let colonPort := host.drop (i + 1)
      if ¬ validOptionalPort colonPort then none
      else
        match goIndexSub (host.take i) (gs "%25") with
        | some zone =>
          (unescapeGo .host (host.take zone)).bind fun h1 =>
          (unescapeGo .zone ((host.take i).drop zone)).bind fun h2 =>
          (unescapeGo .host (host.drop i)).map fun h3 => h1 ++ h2 ++ h3
        | none => unescapeGo .host host
  else
    match goLastIndexChar host ':' with
    | some i =>
      if ¬ validOptionalPort (host.drop i) then none
      else unescapeGo .host host
    | none => unescapeGo .host host

/-- `net/url.validUserinfo`.  (Go ranges over runes; every byte ≥ `0x80`
begins a rune ≥ `0x80`, which the Go code likewise rejects, so the
byte-wise check is equivalent.) -/
def validUserinfo (s : GoStr) : Bool :=
  s.all fun r =>
    ('A' ≤ r ∧ r ≤ 'Z') ∨ ('a' ≤ r ∧ r ≤ 'z') ∨ ('0' ≤ r ∧ r ≤ '9') ∨
    r ∈ ['-', '.', '_', ':', '~', '!', '$', '&', '\'', '(', ')', '*',
         '+', ',', ';', '=', '%', '@']

/-- `net/url.parseAuthority`, keeping only the host (the embedded code
never reads `User`); the userinfo validity and unescape error paths are
preserved. -/
def parseAuthority (authority : GoStr) : Option GoStr :=
  match goLastIndexChar authority '@' with
  | none => parseHost authority
  | some i =>
    (parseHost (authority.drop (i + 1))).bind fun host =>
    let userinfo := authority.take i
    if ¬ validUserinfo userinfo then none
    else if ¬ goContains userinfo (gs ":") then
      (unescapeGo .userPwd userinfo).map fun _ => host
    else
      let cutUI := goCut userinfo ':'
      (unescapeGo .userPwd cutUI.1).bind fun _ =>
      (unescapeGo .userPwd cutUI.2.1).map fun _ => host

/-- Result of `net/url.Parse`: the fields read by the embedded code. -/
structure GoURL where
  scheme : GoStr := []
  opq : GoStr := []
  host : GoStr := []
  path : GoStr := []
  rawQuery : GoStr := []
  forceQuery : Bool := false
  fragment : GoStr := []
deriving DecidableEq, Repr

/-- `net/url.getScheme`: `none` models the "missing protocol scheme"
error; otherwise returns `(scheme, rest)` (scheme possibly empty). -/
def getSchemeGo (rawURL : GoStr) : Option (GoStr × GoStr) :=
  go rawURL [] true
where
  go : GoStr → GoStr → Bool → Option (GoStr × GoStr)
  | [], _, _ => some ([], rawURL)
  | c :: cs, acc, first =>
    if ('a' ≤ c ∧ c ≤ 'z') ∨ ('A' ≤ c ∧ c ≤ 'Z') then
      go cs (c :: acc) false
    else if ('0' ≤ c ∧ c ≤ '9') ∨ c = '+' ∨ c = '-' ∨ c = '.' then
      if first then some ([], rawURL) else go cs (c :: acc) false
    else if c = ':' then
      if first then none else some (acc.reverse, cs)
    else some ([], rawURL)

/-- Shared tail of `net/url.parse`: the authority branch followed by
`setPath` (only `Path` is retained; `RawPath` is never read). -/
def authorityAndPath (scheme rest rawQuery : GoStr) (forceQuery : Bool) :
    Option GoURL :=
  if (scheme ≠ [] ∨ ¬ goStartsWith rest (gs "///")) ∧
      goStartsWith rest (gs "//") then
    let authority0 := rest.drop 2
    let ar :=
      match goIndexChar authority0 '/' with
      | some i => (authority0.take i, authority0.drop i)
      | none => (authority0, [])
    (parseAuthority ar.1).bind fun host =>
    (unescapeGo .path ar.2).map fun p =>
      { scheme := scheme, host := host, path := p, rawQuery := rawQuery,
        forceQuery := forceQuery }
  else
    (unescapeGo .path rest).map fun p =>
      { scheme := scheme, path := p, rawQuery := rawQuery,
        forceQuery := forceQuery }

/-- `net/url.parse` with `viaRequest = false`. -/
def parseMain (rawURL : GoStr) : Option GoURL :=
  if containsCTLByte rawURL then none
  else if rawURL = gs "*" then some { path := gs "*" }
  else
    match getSchemeGo rawURL with
    | none => none
    | some (scheme0, rest0) =>
      let scheme := goToLower scheme0
      let rqf :=
        if goEndsWith rest0 (gs "?") ∧ ¬ goContains rest0.dropLast (gs "?")
        then (rest0.dropLast, ([] : GoStr), true)
        else
          let c := goCut rest0 '?'
          (c.1, c.2.1, false)
      let rest := rqf.1
      let rawQuery := rqf.2.1
      let forceQuery := rqf.2.2
      if ¬ goStartsWith rest (gs "/") then
        if scheme ≠ [] then
          some { scheme := scheme, opq := rest, rawQuery := rawQuery,
                 forceQuery := forceQuery }
        else if goContains (goCut rest '/').1 (gs ":") then none
        else authorityAndPath scheme rest rawQuery forceQuery
      else authorityAndPath scheme rest rawQuery forceQuery

/-- `net/url.Parse`: splits off the fragment, parses, then unescapes a
non-empty fragment. -/
def urlParse (rawURL : GoStr) : Option GoURL :=
  let cutF := goCut rawURL '#'
  (parseMain cutF.1).bind fun url =>
    if cutF.2.1 = [] then some url
    else (unescapeGo .frag cutF.2.1).map fun f => { url with fragment := f }

/-! ## Validator (`pkg/proxy/validator.go`) -/

/-- Error cases of `sanitizeRequestURI` (the Go code returns distinct
error strings; only their identity matters downstream). -/
inductive SanErr
  | empty | schemeLike | protoRelative | parseFail | hasHost
  | hasScheme | noSlash | traversal
deriving DecidableEq, Repr

/-- `sanitizeRequestURI` from `pkg/proxy/validator.go`. -/
def sanitizeRequestURI (reqURI : GoStr) : Except SanErr GoStr :=
  if reqURI = [] then .error .empty
  else if goContains reqURI (gs "://") then .error .schemeLike
  else if goStartsWith reqURI (gs "//") then .error .protoRelative
  else
    match urlParse reqURI with
    | none => .error .parseFail
    | some parsedURI =>
      if parsedURI.host ≠ [] then .error .hasHost
      else if parsedURI.scheme ≠ [] then .error .hasScheme
      else
        let path := if parsedURI.path = [] then gs "/" else parsedURI.path
        if ¬ goStartsWith path (gs "/") then .error .noSlash
        else if goContains path (gs "..") then .error .traversal
        else
          .ok (path ++
            (if parsedURI.rawQuery ≠ [] then '?' :: parsedURI.rawQuery
             else []))

/-- The allow-list constant of `isAllowedPath`. -/
def allowedPrefixes : List GoStr :=
  [gs "/analytics.js", gs "/ga.js", gs "/gtag/js", gs "/gtm.js",
   gs "/collect", gs "/j/collect", gs "/g/collect", gs "/r/collect",
   gs "/batch", gs "/api/"]

/-- `isAllowedPath` from `pkg/proxy/validator.go`. -/
def isAllowedPath (path : GoStr) : Bool :=
  allowedPrefixes.any fun p => goStartsWith path p

/-! ## Go `path/filepath.Match` and `path/filepath.Base` (unix)

Loops of the Go code whose measure is the number of pattern bytes consumed
are written with an explicit fuel argument initialised to one more than the
length of the scanned chunk/pattern; every iteration of the corresponding
Go loop consumes at least one byte, so the fuel never runs out on the
arguments the wrappers supply. -/

/-- `unicode/utf8.DecodeRuneInString` on the byte model: returns
`(rune, size)`; invalid encodings give `(0xFFFD, 1)` and the empty string
gives `(0xFFFD, 0)`, as in Go. -/
def utf8DecodeRune (s : GoStr) : Nat × Nat :=
  match s with
  | [] => (0xFFFD, 0)
  | b0 :: rest =>
    let n0 := b0.toNat
    let isCont := fun (b : Char) => 0x80 ≤ b.toNat ∧ b.toNat ≤ 0xBF
    if n0 < 0x80 then (n0, 1)
    else if 0xC2 ≤ n0 ∧ n0 ≤ 0xDF then
      match rest with
      | b1 :: _ =>
        if isCont b1 then ((n0 - 0xC0) * 64 + (b1.toNat - 0x80), 2)
        else (0xFFFD, 1)
      | [] => (0xFFFD, 1)
    else if 0xE0 ≤ n0 ∧ n0 ≤ 0xEF then
      match rest with
      | b1 :: b2 :: _ =>
        let lo1 := if n0 = 0xE0 then 0xA0 else 0x80
        let hi1 := if n0 = 0xED then 0x9F else 0xBF
        if lo1 ≤ b1.toNat ∧ b1.toNat ≤ hi1 ∧ isCont b2 then
          ((n0 - 0xE0) * 4096 + (b1.toNat - 0x80) * 64 + (b2.toNat - 0x80), 3)
        else (0xFFFD, 1)
      | _ => (0xFFFD, 1)
    else if 0xF0 ≤ n0 ∧ n0 ≤ 0xF4 then
      match rest with
      | b1 :: b2 :: b3 :: _ =>
        let lo1 := if n0 = 0xF0 then 0x90 else 0x80
        let hi1 := if n0 = 0xF4 then 0x8F else 0xBF
        if lo1 ≤ b1.toNat ∧ b1.toNat ≤ hi1 ∧ isCont b2 ∧ isCont b3 then
          ((n0 - 0xF0) * 262144 + (b1.toNat - 0x80) * 4096 +
             (b2.toNat - 0x80) * 64 + (b3.toNat - 0x80), 4)
        else (0xFFFD, 1)
      | _ => (0xFFFD, 1)
    else (0xFFFD, 1)

/-- `path/filepath.getEsc`: one (possibly escaped) pattern rune; `none`
models `ErrBadPattern`. -/
def getEsc (chunk : GoStr) : Option (Nat × GoStr) :=
  match chunk with
  | [] => none
  | c :: rest =>
    if c = '-' ∨ c = ']' then none
    else
      let chunk1 := if c = '\\' then rest else c :: rest
      if chunk1 = [] then none
      else
        let d := utf8DecodeRune chunk1
        if d.1 = 0xFFFD ∧ d.2 = 1 then none
        else
          let nchunk := chunk1.drop d.2
          if nchunk = [] then none else some (d.1, nchunk)

/-- The range-parsing loop of `path/filepath.matchChunk`'s `[...]` case:
returns the remaining chunk and whether rune `r` matched a range. -/
def matchRanges (r : Nat) : Nat → GoStr → Bool → Nat → Option (GoStr × Bool)
  | 0, _, _, _ => none
  | fuel + 1, chunk, m, nrange =>
    if chunk.head? = some ']' ∧ nrange > 0 then some (chunk.tail, m)
    else
      match getEsc chunk with
      | none => none
      | some (lo, chunk1) =>
        if chunk1.head? = some '-' then
          match getEsc chunk1.tail with
          | none => none
          | some (hi, chunk2) =>
            matchRanges r fuel chunk2 (m || (lo ≤ r ∧ r ≤ hi)) (nrange + 1)
        else
          matchRanges r fuel chunk1 (m || (lo ≤ r ∧ r ≤ lo)) (nrange + 1)

/-- The body of `path/filepath.matchChunk`: consumes `chunk` against `s`,
returning `(rest-of-s, ok)`; `none` models `ErrBadPattern`. -/
def matchChunkGo : Nat → GoStr → GoStr → Bool → Option (GoStr × Bool)
  | 0, _, _, _ => none
  | _ + 1, [], s, failed => if failed then some ([], false) else some (s, true)
  | fuel + 1, c0 :: chunkRest, s, failed0 =>
    let failed := failed0 || s.isEmpty
    if c0 = '[' then
      let rs :=
        if failed then (0, s)
        else
          let d := utf8DecodeRune s
          (d.1, s.drop d.2)
      let nc :=
        if chunkRest.head? = some '^' then (true, chunkRest.tail)
        else (false, chunkRest)
      match matchRanges rs.1 (nc.2.length + 1) nc.2 false 0 with
      | none => none
      | some (chunk', m) =>
        matchChunkGo fuel chunk' rs.2 (failed || (m = nc.1))
    else if c0 = '?' then
      if failed then matchChunkGo fuel chunkRest s failed
      else
        let failedQ := s.head? = some '/'
        let d := utf8DecodeRune s
        matchChunkGo fuel chunkRest (s.drop d.2) failedQ
    else if c0 = '\\' then
      match chunkRest with
      | [] => none
      | c1 :: chunkRest' =>
        if failed then matchChunkGo fuel chunkRest' s failed
        else matchChunkGo fuel chunkRest' s.tail (decide (s.head? ≠ some c1))
    else
      if failed then matchChunkGo fuel chunkRest s failed
      else matchChunkGo fuel chunkRest s.tail (decide (s.head? ≠ some c0))

/-- `path/filepath.matchChunk`. -/
def matchChunk (chunk s : GoStr) : Option (GoStr × Bool) :=
  matchChunkGo (chunk.length + 1) chunk s false

/-- The leading-star stripping of `path/filepath.scanChunk`. -/
def stripStars : GoStr → Bool × GoStr
  | [] => (false, [])
  | c :: rest =>
    if c = '*' then (true, (stripStars rest).2) else (false, c :: rest)

/-- The scan loop of `path/filepath.scanChunk` (a `\` escapes the next
byte; `*` terminates the chunk unless inside `[...]`). -/
def scanBody : GoStr → Bool → GoStr × GoStr
  | [], _ => ([], [])
  | c :: rest, inrange =>
    if c = '\\' then
      match rest with
      | c2 :: rest' =>
        let r := scanBody rest' inrange
        (c :: c2 :: r.1, r.2)
      | [] => ([c], [])
    else if c = '[' then
      let r := scanBody rest true
      (c :: r.1, r.2)
    else if c = ']' then
      let r := scanBody rest false
      (c :: r.1, r.2)
    else if c = '*' ∧ ¬ inrange then ([], c :: rest)
    else
      let r := scanBody rest inrange
      (c :: r.1, r.2)

/-- `path/filepath.scanChunk`: `(star, chunk, rest)`. -/
def scanChunk (pattern : GoStr) : Bool × GoStr × GoStr :=
  let st := stripStars pattern
  let cb := scanBody st.2 false
  (st.1, cb.1, cb.2)

/-- The final pattern-validity loop of `path/filepath.Match` (run before
returning `false` without error). -/
def patternValid : Nat → GoStr → Bool
  | 0, _ => false
  | _ + 1, [] => true
  | fuel + 1, pattern =>
    let sc := scanChunk pattern
    match matchChunk sc.2.1 [] with
    | none => false
    | some _ => patternValid fuel sc.2.2

/-- The star-skip loop of `path/filepath.Match`: tries `matchChunk` at
every byte offset of `name` up to the first `/`.  `some (some t)` means a
position matched with remainder `t`; `some none` means the loop ended. -/
def starLoop (chunk patternRest : GoStr) : GoStr → Option (Option GoStr)
  | [] => some none
  | c :: nameRest =>
    if c = '/' then some none
    else
      match matchChunk chunk nameRest with
      | none => none
      | some (t, ok) =>
        if ok then
          if patternRest = [] ∧ t ≠ [] then starLoop chunk patternRest nameRest
          else some (some t)
        else starLoop chunk patternRest nameRest

/-- `path/filepath.Match` (unix separator).  `none` models
`ErrBadPattern`; the caller in the proxy discards the error, in which case
Go yields `matched = false`. -/
def matchGoAux : Nat → GoStr → GoStr → Option Bool
  | 0, _, _ => none
  | _ + 1, [], name => some (name = [])
  | fuel + 1, pattern, name =>
    let sc := scanChunk pattern
    let star := sc.1
    let chunk := sc.2.1
    let rest := sc.2.2
    if star ∧ chunk = [] then some (¬ goContains name (gs "/"))
    else
      match matchChunk chunk name with
      | none => none
      | some (t, ok) =>
        if ok ∧ (t = [] ∨ rest ≠ []) then matchGoAux fuel rest t
        else if star then
          match starLoop chunk rest name with
          | none => none
          | some (some t') => matchGoAux fuel rest t'
          | some none =>
            if patternValid (rest.length + 1) rest then some false else none
        else
          if patternValid (rest.length + 1) rest then some false else none

/-- `path/filepath.Match` with the error discarded, as the proxy calls it
(`matched, _ := filepath.Match(...)`; Go returns `matched = false` on
every error path). -/
def filepathMatch (pattern name : GoStr) : Bool :=
  (matchGoAux (pattern.length + 1) pattern name).getD false

/-- The trailing-separator stripping of `path/filepath.Base` (the Go loop
pops separators off the end; this structural formulation computes the
same string: a character is kept iff something after it survives or it is
itself not a separator at the end). -/
def dropTrailingSlashes : GoStr → GoStr
  | [] => []
  | c :: rest =>
    match dropTrailingSlashes rest with
    | [] => if c = '/' then [] else [c]
    | r => c :: r

/-- `path/filepath.Base` (unix; no volume names). -/
def goBase (path : GoStr) : GoStr :=
  if path = [] then gs "."
  else
    let p1 := dropTrailingSlashes path
    let p2 :=
      match goLastIndexChar p1 '/' with
      | some i => p1.drop (i + 1)
      | none => p1
    if p2 = [] then gs "/" else p2

/-! ## Cache (`pkg/cache/cache.go`)

Wall-clock instants (`time.Time`) are modelled as `Int`; `time.Now()` is an
explicit `now` parameter.  The Go map is modelled as an association list
whose order stands for the map's iteration order (Go's iteration order is
unspecified; the list order is one admissible order, and `Set` keeps an
updated key in place exactly like a Go map assignment). -/

/-- A cache entry (`cache.Entry`). -/
structure Entry where
  data : GoStr
  expiresAt : Int
  contentType : GoStr
  statusCode : Int
deriving DecidableEq, Repr

/-- Cache state (`cache.Cache` plus its `Stats` counters). -/
structure CacheModel where
  entries : List (GoStr × Entry)
  maxSize : Int
  currSize : Int
  ttl : Int
  hits : Nat := 0
  misses : Nat := 0
  evictions : Nat := 0
  sets : Nat := 0
deriving DecidableEq, Repr

/-- Association-list lookup, modelling `c.data[key]`. -/
def assocFind (key : GoStr) : List (GoStr × Entry) → Option Entry
  | [] => none
  | (k, e) :: rest => if k = key then some e else assocFind key rest

/-- Association-list removal, modelling `delete(c.data, key)`. -/
def assocErase (key : GoStr) : List (GoStr × Entry) → List (GoStr × Entry)
  | [] => []
  | (k, e) :: rest =>
    if k = key then assocErase key rest else (k, e) :: assocErase key rest

/-- Association-list insert-or-update, modelling `c.data[key] = entry`. -/
def assocPut (key : GoStr) (v : Entry) : List (GoStr × Entry) →
    List (GoStr × Entry)
  | [] => [(key, v)]
  | (k, e) :: rest =>
    if k = key then (k, v) :: rest else (k, e) :: assocPut key v rest

/-- `Cache.Get`: returns the entry (or `none`) together with the updated
state (Go increments the hit/miss counters inside `Get`).  An entry is
live while `¬ now.After(expiresAt)`, i.e. while `now ≤ expiresAt`. -/
def cacheGet (c : CacheModel) (key : GoStr) (now : Int) :
    Option Entry × CacheModel :=
  match assocFind key c.entries with
  | none => (none, { c with misses := c.misses + 1 })
  | some entry =>
    if now > entry.expiresAt then (none, { c with misses := c.misses + 1 })
    else (some entry, { c with hits := c.hits + 1 })

/-- The fold of `Cache.evictOldest` that selects the key with the earliest
expiration (`first || entry.ExpiresAt.Before(oldestTime)`). -/
def oldestOf : List (GoStr × Entry) → GoStr × Int × Bool →
    GoStr × Int × Bool
  | [], acc => acc
  | (k, e) :: rest, (accK, accT, first) =>
    if first ∨ e.expiresAt < accT then oldestOf rest (k, e.expiresAt, false)
    else oldestOf rest (accK, accT, first)

/-- `Cache.evictOldest`.  Note the guard `oldestKey != ""` of the source:
when the selected key is the empty string nothing is removed.  (Indexing a
Go map with an absent key yields the zero `Entry`, whose body length is 0;
that branch is unreachable because the selected key always comes from the
map.) -/
def evictOldest (c : CacheModel) : CacheModel :=
  let sel := oldestOf c.entries ([], 0, true)
  let oldestKey := sel.1
  if oldestKey ≠ [] then
    let oldLen : Int :=
      match assocFind oldestKey c.entries with
      | some old => old.data.length
      | none => 0
    { c with
      currSize := c.currSize - oldLen
      entries := assocErase oldestKey c.entries
      evictions := c.evictions + 1 }
  else c

/-- The eviction loop of `Cache.Set`
(`for currSize+dataSize > maxSize && len(data) > 0`).  The fuel bounds the
number of iterations; `none` models a loop that never exits (each
productive iteration removes an entry, so `entries.length + 1` fuel is
enough whenever the Go loop terminates). -/
def setEvictLoop (dataSize : Int) : Nat → CacheModel → Option CacheModel
  | 0, _ => none
  | fuel + 1, c =>
    if c.currSize + dataSize > c.maxSize ∧ c.entries ≠ [] then
      setEvictLoop dataSize fuel (evictOldest c)
    else some c

/-- `Cache.Set`.  Returns `none` when the Go code would not terminate. -/
def cacheSet (c : CacheModel) (key : GoStr) (data : GoStr)
    (contentType : GoStr) (statusCode : Int) (now : Int) :
    Option CacheModel :=
  let dataSize : Int := data.length
  (setEvictLoop dataSize (c.entries.length + 1) c).map fun c1 =>
    let entry : Entry :=
      { data := data, expiresAt := now + c1.ttl,
        contentType := contentType, statusCode := statusCode }
    let c2 :=
      match assocFind key c1.entries with
      | some oldEntry =>
        { c1 with currSize := c1.currSize - (oldEntry.data.length : Int) }
      | none => c1
    { c2 with
      entries := assocPut key entry c2.entries
      currSize := c2.currSize + dataSize
      sets := c2.sets + 1 }

/-- Total byte size of the stored bodies. -/
def sizeSum (l : List (GoStr × Entry)) : Int :=
  (l.map fun kv => (kv.2.data.length : Int)).sum

/-- The stored keys, in order. -/
def keysOf (l : List (GoStr × Entry)) : List GoStr :=
  l.map fun kv => kv.1

/-- Size accounting invariant of a cache state: `currSize` equals the sum
of the entry body lengths, and keys are unique (as in a Go map). -/
def cacheWF (c : CacheModel) : Prop :=
  c.currSize = sizeSum c.entries ∧ (keysOf c.entries).Nodup

/-! ## Rate limiter (`pkg/ratelimit/ratelimit.go`)

`float64` token counts are modelled as exact rationals and `time.Time`
instants as rationals (`elapsed.Seconds()` is the difference of the two
instants).  The per-process monotonic clock of Go's `time.Now` is captured
by requiring call instants to be non-decreasing. -/

/-- A token bucket (`ratelimit.bucket`). -/
structure Bucket where
  tokens : ℚ
  lastUpdate : ℚ
deriving DecidableEq, Repr

/-- Limiter state (`ratelimit.Limiter`). -/
structure Limiter where
  buckets : List (GoStr × Bucket)
  rps : Int
  burst : Int
deriving DecidableEq, Repr

/-- Bucket-map lookup (`l.buckets[ip]`). -/
def bucketFind (key : GoStr) : List (GoStr × Bucket) → Option Bucket
  | [] => none
  | (k, b) :: rest => if k = key then some b else bucketFind key rest

/-- Bucket-map insert-or-update (`l.buckets[ip] = b` and later mutation of
the found bucket, which in Go happens through the shared pointer). -/
def bucketPut (key : GoStr) (v : Bucket) : List (GoStr × Bucket) →
    List (GoStr × Bucket)
  | [] => [(key, v)]
  | (k, b) :: rest =>
    if k = key then (k, v) :: rest else (k, b) :: bucketPut key v rest

/-- `ratelimit.New`. -/
def limiterNew (rps burst : Int) : Limiter :=
  { buckets := [], rps := rps, burst := burst }

/-- `Limiter.Allow`: refill by elapsed time, cap at burst, then take one
token if at least one is available. -/
def allow (l : Limiter) (ip : GoStr) (now : ℚ) : Bool × Limiter :=
  let b :=
    match bucketFind ip l.buckets with
    | some b => b
    | none => { tokens := (l.burst : ℚ), lastUpdate := now }
  let elapsed := now - b.lastUpdate
  let tokens1 := b.tokens + elapsed * (l.rps : ℚ)
  let tokens2 := if tokens1 > (l.burst : ℚ) then (l.burst : ℚ) else tokens1
  if tokens2 ≥ 1 then
    (true,
     { l with buckets := bucketPut ip (Bucket.mk (tokens2 - 1) now) l.buckets })
  else
    (false,
     { l with buckets := bucketPut ip (Bucket.mk tokens2 now) l.buckets })

/-- Run a sequence of `Allow` calls (identity, instant). -/
def runAllows (l : Limiter) : List (GoStr × ℚ) → Limiter
  | [] => l
  | (ip, t) :: rest => runAllows (allow l ip t).2 rest

/-- Call instants are non-decreasing starting from `t0` (Go's monotonic
clock). -/
def chrono (t0 : ℚ) : List (GoStr × ℚ) → Bool
  | [] => true
  | (_, t) :: rest => decide (t0 ≤ t) && chrono t rest

/-- The instant of the last call of a sequence (or `t0` when empty). -/
def endTime (t0 : ℚ) : List (GoStr × ℚ) → ℚ
  | [] => t0
  | (_, t) :: rest => endTime t rest

/-- Every bucket's token count lies in `[0, burst]` and was last updated
no later than `t0`. -/
def limiterWF (l : Limiter) (t0 : ℚ) : Prop :=
  ∀ kb ∈ l.buckets,
    0 ≤ (kb.2 : Bucket).tokens ∧ kb.2.tokens ≤ (l.burst : ℚ) ∧
    kb.2.lastUpdate ≤ t0

/-! ## Upstream client (`pkg/proxy/client.go`) -/

/-- The `fasthttp` errors distinguished by `shouldRetry`; `other n` stands
for any further error value. -/
inductive ClientErr
  | timeout
  | connectionClosed
  | other (n : Nat)
deriving DecidableEq, Repr

/-- `shouldRetry` from `pkg/proxy/client.go`. -/
def shouldRetry : ClientErr → Bool
  | .timeout => true
  | .connectionClosed => true
  | .other _ => false

/-- Outcome of `Client.Do`: `success` models a `nil` return; `failure e`
models `errors.UpstreamError("upstream request failed after retries", e)`
(where `e` is the `lastErr` wrapped). -/
inductive DoOutcome
  | success
  | failure (lastErr : Option ClientErr)
deriving DecidableEq, Repr

/-- Observable behaviour of one `Client.Do` call: number of attempts of
the underlying `client.Do`, the sleep durations in order, and the result. -/
structure DoResult where
  attempts : Nat
  sleeps : List Nat
  result : DoOutcome
deriving DecidableEq, Repr

/-- The retry loop of `Client.Do`.  `oracle n` is the error of underlying
attempt `n` (`none` = success), `attempt` the loop counter, and the fuel
is `retryCount + 1 - attempt` at each entry. -/
def doLoop (oracle : Nat → Option ClientErr) (retryDelay : Nat) :
    Nat → Nat → Option ClientErr → List Nat → DoResult
  | 0, attempt, lastErr, sleeps =>
    { attempts := attempt, sleeps := sleeps.reverse,
      result := .failure lastErr }
  | fuel + 1, attempt, lastErr, sleeps =>
    let sleeps1 := if attempt > 0 then (retryDelay * attempt) :: sleeps
      else sleeps
    match oracle attempt with
    | none =>
      { attempts := attempt + 1, sleeps := sleeps1.reverse,
        result := .success }
    | some e =>
      if shouldRetry e then doLoop oracle retryDelay fuel (attempt + 1)
        (some e) sleeps1
      else
        { attempts := attempt + 1, sleeps := sleeps1.reverse,
          result := .failure (some e) }

/-- `Client.Do` with retry count and delay from the configuration. -/
def clientDo (oracle : Nat → Option ClientErr) (retryDelay retryCount : Nat) :
    DoResult :=
  doLoop oracle retryDelay (retryCount + 1) 0 none []

/-! ## Proxy service (`pkg/proxy/service.go`)

The `fasthttp` request object is modelled as a record of the components
the service sets on it; the query-argument container mutations (`Add`,
`Del`) are recorded as the parsed initial query string plus the lists of
injected pairs and deleted names.  The upstream call is an oracle mapping
the composed request to either a client error or a response; the response
carries the status code, the content type, and the outcome of
`getBodyString` (`none` = decompression error). -/

/-- The scanning loop of `strings.Replace` for a non-empty search string
(passed as head and tail).  Every step consumes at least one byte of `s`,
so fuel `s.length` never runs out for the wrapper's call. -/
def replaceLoop (o : Char) (oldRest newS : GoStr) : Nat → GoStr → GoStr
  | _, [] => []
  | 0, s => s
  | fuel + 1, c :: rest =>
    if (o :: oldRest).isPrefixOf (c :: rest) then
      newS ++
        replaceLoop o oldRest newS fuel ((c :: rest).drop (oldRest.length + 1))
    else c :: replaceLoop o oldRest newS fuel rest

/-- `strings.ReplaceAll`. -/
def goReplaceAll (s oldS newS : GoStr) : GoStr :=
  match oldS with
  | [] => newS ++ (s.map fun c => c :: newS).flatten
  | o :: oldRest => replaceLoop o oldRest newS s.length s

/-- The `googleDomains` constant of `pkg/proxy/service.go`. -/
def googleDomains : List GoStr :=
  [gs "ssl.google-analytics.com", gs "www.google-analytics.com",
   gs "google-analytics.com", gs "www.googletagmanager.com",
   gs "googletagmanager.com"]

/-- `Service.isJavaScript`. -/
def isJavaScript (contentType : GoStr) : Bool :=
  goStartsWith contentType (gs "text/javascript") ||
  goStartsWith contentType (gs "application/javascript") ||
  goStartsWith contentType (gs "application/x-javascript")

/-- Configuration values read by the proxy engine (`pkg/config`).
`googleOrigin` is the result of `GetParsedGoogleOrigin()` (scheme, host),
`none` modelling its error return; `injectHeaders` is
`GetInjectHeaders()` as `(header name, query param name)` pairs and
`skipParams` is `GetSkipParams()`. -/
structure ConfigModel where
  cacheEnabled : Bool
  cacheKeyPattern : GoStr
  routePfx : GoStr
  googleOrigin : Option (GoStr × GoStr)
  injectHeaders : List (GoStr × GoStr)
  skipParams : List GoStr

/-- `Service.isCacheable`. -/
def isCacheable (cfg : ConfigModel) (uri : GoStr) : Bool :=
  if ¬ cfg.cacheEnabled then false
  else
    match urlParse uri with
    | none => false
    | some parsedURI =>
      filepathMatch cfg.cacheKeyPattern (goBase parsedURI.path)

/-- `Service.getCacheKey`. -/
def getCacheKey (uri : GoStr) : GoStr := uri

/-- The upstream request as composed by `ProxyRequest` before calling the
client. -/
structure UpstreamReq where
  scheme : GoStr
  host : GoStr
  path : GoStr
  rawQuery : GoStr
  headers : List (GoStr × GoStr)
  injected : List (GoStr × GoStr)
  skipped : List GoStr
deriving DecidableEq, Repr

/-- The upstream response as observed by `ProxyRequest`: status code,
content type, and the result of `getBodyString` (`none` models a
decompression error). -/
structure UpstreamResp where
  statusCode : Int
  contentType : GoStr
  bodyResult : Option GoStr
deriving DecidableEq, Repr

/-- The error taxonomy of `pkg/errors` (kinds only; the messages and
wrapped causes are not read by the handler). -/
inductive GaxyErr
  | validation
  | config
  | upstream (cause : Option ClientErr)
  | proxy
deriving DecidableEq, Repr

/-- `proxy.Response`. -/
structure RespModel where
  statusCode : Int
  body : GoStr
  contentType : GoStr
deriving DecidableEq, Repr

/-- Observable outcome of one `ProxyRequest` call.  `outcome = none`
means the call does not return normally (the source dereferences the
`nil` result of an ignored `url.Parse` error, or `Cache.Set` fails to
terminate). -/
structure ProxyResult where
  outcome : Option (Except GaxyErr RespModel)
  cache : Option CacheModel
  upstreamCalled : Bool
  cacheSetCalled : Bool

/-- Map-lookup in the header map. -/
def headerFind (key : GoStr) : List (GoStr × GoStr) → Option GoStr
  | [] => none
  | (k, v) :: rest => if k = key then some v else headerFind key rest

/-- Header-injection loop of `ProxyRequest`: for each configured mapping,
if the inbound header is present and non-empty, add `(param, value)`. -/
def injectPairs (cfg : ConfigModel) (headers : List (GoStr × GoStr)) :
    List (GoStr × GoStr) :=
  cfg.injectHeaders.filterMap fun m =>
    match headerFind m.1 headers with
    | some v => if v ≠ [] then some (m.2, v) else none
    | none => none

/-- The cache-read step of `ProxyRequest`
(`if s.cache != nil && s.isCacheable(uri)` then `Get`). -/
def tryCacheGet (cfg : ConfigModel) (cache : Option CacheModel)
    (uri : GoStr) (now : Int) : Option Entry × Option CacheModel :=
  match cache with
  | none => (none, none)
  | some c =>
    if isCacheable cfg uri then
      let r := cacheGet c (getCacheKey uri) now
      (r.1, some r.2)
    else (none, some c)

/-- `Service.ProxyRequest`. -/
def proxyRequest (cfg : ConfigModel) (cache : Option CacheModel)
    (reqURI : GoStr) (headers : List (GoStr × GoStr)) (host : GoStr)
    (now : Int) (doClient : UpstreamReq → Except ClientErr UpstreamResp) :
    ProxyResult :=
  match sanitizeRequestURI reqURI with
  | .error _ =>
    { outcome := some (.error .validation), cache := cache,
      upstreamCalled := false, cacheSetCalled := false }
  | .ok sanitizedURI =>
    match urlParse sanitizedURI with
    | none =>
      -- `parsedURI, _ := url.Parse(sanitizedURI)` ignores the error and the
      -- subsequent field access dereferences a nil pointer: a panic.
      { outcome := none, cache := cache,
        upstreamCalled := false, cacheSetCalled := false }
    | some parsedURI =>
      if ¬ isAllowedPath parsedURI.path then
        { outcome := some (.error .validation), cache := cache,
          upstreamCalled := false, cacheSetCalled := false }
      else
        let got := tryCacheGet cfg cache sanitizedURI now
        let cache1 := got.2
        match got.1 with
        | some entry =>
          { outcome := some (.ok
              (RespModel.mk entry.statusCode entry.data entry.contentType)),
            cache := cache1, upstreamCalled := false,
            cacheSetCalled := false }
        | none =>
          match cfg.googleOrigin with
          | none =>
            { outcome := some (.error .config), cache := cache1,
              upstreamCalled := false, cacheSetCalled := false }
          | some origin =>
            let upstreamReq : UpstreamReq :=
              { scheme := origin.1, host := origin.2,
                path := parsedURI.path, rawQuery := parsedURI.rawQuery,
                headers := headers,
                injected := injectPairs cfg headers,
                skipped := cfg.skipParams }
            match doClient upstreamReq with
            | .error e =>
              { outcome := some (.error (.upstream (some e))),
                cache := cache1, upstreamCalled := true,
                cacheSetCalled := false }
            | .ok uresp =>
              match uresp.bodyResult with
              | none =>
                { outcome := some (.error .proxy), cache := cache1,
                  upstreamCalled := true, cacheSetCalled := false }
              | some body0 =>
                let contentType := uresp.contentType
                let bodyBytes :=
                  if isJavaScript contentType then
                    googleDomains.foldl
                      (fun b d => goReplaceAll b d (host ++ cfg.routePfx))
                      body0
                  else body0
                match cache1 with
                | some c1 =>
                  if isCacheable cfg sanitizedURI ∧ uresp.statusCode = 200
                  then
                    match cacheSet c1 (getCacheKey sanitizedURI) bodyBytes
                        contentType uresp.statusCode now with
                    | some c2 =>
                      { outcome := some (.ok (RespModel.mk uresp.statusCode
                          bodyBytes contentType)),
                        cache := some c2, upstreamCalled := true,
                        cacheSetCalled := true }
                    | none =>
                      { outcome := none, cache := some c1,
                        upstreamCalled := true, cacheSetCalled := true }
                  else
                    { outcome := some (.ok (RespModel.mk uresp.statusCode
                        bodyBytes contentType)),
                      cache := some c1, upstreamCalled := true,
                      cacheSetCalled := false }
                | none =>
                  { outcome := some (.ok (RespModel.mk uresp.statusCode
                      bodyBytes contentType)),
                    cache := none, upstreamCalled := true,
                    cacheSetCalled := false }

/-! ## HTTP edge (`pkg/handler/handler.go`) -/

/-- The response written by `Handler.Proxy`. -/
structure HandlerResp where
  status : Int
  body : GoStr
  contentType : Option GoStr
deriving DecidableEq, Repr

/-- The literal JSON error body `\x7b"error":"Failed to proxy request"\x7d`
returned with status 502. -/
def failedProxyBody : GoStr :=
  gs "\x7b\"error\":\"Failed to proxy request\"\x7d"

/-- Go `strings.TrimPrefix`. -/
def goTrimPre (s pre : GoStr) : GoStr :=
  if pre.isPrefixOf s then s.drop pre.length else s

/-- The route-prefix trimming step of `Handler.Proxy`. -/
def handlerTrim (cfg : ConfigModel) (reqURI : GoStr) : GoStr :=
  if cfg.routePfx ≠ [] ∧ goStartsWith reqURI (cfg.routePfx ++ gs "/")
  then goTrimPre reqURI cfg.routePfx
  else reqURI

/-- `Handler.Proxy`: trims the route prefix, invokes the engine, and maps
every engine error to status 502 with the fixed JSON body; on success the
upstream status, body and content type are passed through.  `none`
propagates a non-returning engine call. -/
def handlerProxy (cfg : ConfigModel) (cache : Option CacheModel)
    (reqURI : GoStr) (headers : List (GoStr × GoStr)) (host : GoStr)
    (now : Int) (doClient : UpstreamReq → Except ClientErr UpstreamResp) :
    Option HandlerResp :=
  let uri := handlerTrim cfg reqURI
  match (proxyRequest cfg cache uri headers host now doClient).outcome with
  | none => none
  | some (.error _) =>
    some { status := 502, body := failedProxyBody, contentType := none }
  | some (.ok resp) =>
    some { status := resp.statusCode, body := resp.body,
           contentType := some resp.contentType }

/-! ## Shared fixtures for concrete instantiations -/

/-- The entry map of an optional cache (`nil` cache has no entries). -/
def entriesOf : Option CacheModel → List (GoStr × Entry)
  | none => []
  | some c => c.entries

/-- A configuration with caching disabled, used for concrete runs. -/
def cfgNoCache : ConfigModel :=
  { cacheEnabled := false, cacheKeyPattern := gs "*.js", routePfx := [],
    googleOrigin := some (gs "https", gs "www.google-analytics.com"),
    injectHeaders := [], skipParams := [] }

/-- A configuration with caching enabled and the default `*.js` pattern. -/
def cfgWithCache : ConfigModel :=
  { cfgNoCache with cacheEnabled := true }

/-- An empty cache with `maxSize = 100`. -/
def emptyCache : CacheModel :=
  { entries := [], maxSize := 100, currSize := 0, ttl := 10 }

/-- An upstream oracle that always answers 200 `text/javascript`. -/
def okClient : UpstreamReq → Except ClientErr UpstreamResp :=
  fun _ => .ok ⟨200, gs "text/javascript", some (gs "body")⟩

/-- An upstream oracle that always answers 404. -/
def notFoundClient : UpstreamReq → Except ClientErr UpstreamResp :=
  fun _ => .ok ⟨404, gs "text/plain", some (gs "nf")⟩

/-- The state produced by storing a 2-byte entry into `emptyCache`. -/
def storedCache : CacheModel :=
  { entries := [(gs "k", Entry.mk (gs "ab") 10 (gs "t") 200)],
    maxSize := 100, currSize := 2, ttl := 10, sets := 1 }

/-! # Theorems -/

/-! ## C5: `Cache.Get` semantics -/

/-- C5 (counterexample): the claim says a lookup at a time exactly equal
to the entry's expiration is a miss; the code uses `time.Now().After`,
so at `now = expiresAt = 5` the entry is returned as a hit even though
`now < expiresAt` fails. -/
theorem c5_counterexample :
    ((cacheGet
        { entries := [(gs "k", Entry.mk (gs "a") 5 (gs "t") 200)],
          maxSize := 100, currSize := 1, ttl := 10 }
        (gs "k") 5).1 =
      some (Entry.mk (gs "a") 5 (gs "t") 200)) ∧
    ¬ ((5 : Int) < 5) := by
  constructor
  · rfl
  · omega

/-- C5 (amended): `Get(key)` returns `(entry, true)` iff the key is
present and `now ≤ expiration` (the boundary instant is a hit, not a
miss); it returns `(nil, false)` otherwise, incrementing the hits counter
exactly on true returns and the misses counter otherwise, and never
touching the entry map. -/
theorem cacheGet_characterisation (c : CacheModel) (key : GoStr)
    (now : Int) :
    (match assocFind key c.entries with
     | some e =>
       if now ≤ e.expiresAt then
         cacheGet c key now = (some e, { c with hits := c.hits + 1 })
       else
         cacheGet c key now = (none, { c with misses := c.misses + 1 })
     | none =>
       cacheGet c key now = (none, { c with misses := c.misses + 1 })) := by
  unfold cacheGet
  cases h : assocFind key c.entries with
  | none => simp
  | some e =>
    by_cases hle : now ≤ e.expiresAt
    · have : ¬ now > e.expiresAt := by omega
      simp [hle, this]
    · have : now > e.expiresAt := by omega
      simp [hle, this]

/-! ## C10: termination of `Cache.Set` -/

/-- C10 (divergence witness): with a single entry stored under the empty
key, an overfull `Set` never terminates: the eviction loop selects the
empty key, the `oldestKey != ""` guard skips the deletion, and the state
repeats forever.  The model's eviction loop returns `none` for every
fuel, and consequently `Cache.Set` has no result. -/
theorem c10_set_diverges :
    (∀ fuel,
      setEvictLoop 1 fuel
        { entries := [([], Entry.mk (gs "a") 0 (gs "t") 200)],
          maxSize := 1, currSize := 1, ttl := 10 } = none) ∧
    cacheSet
      { entries := [([], Entry.mk (gs "a") 0 (gs "t") 200)],
        maxSize := 1, currSize := 1, ttl := 10 }
      (gs "b") (gs "c") (gs "t") 200 0 = none := by
  have hloop : ∀ fuel,
      setEvictLoop 1 fuel
        { entries := [([], Entry.mk (gs "a") 0 (gs "t") 200)],
          maxSize := 1, currSize := 1, ttl := 10 } = none := by
    intro fuel
    induction fuel with
    | zero => rfl
    | succ n ih =>
      have hev : evictOldest
          { entries := [([], Entry.mk (gs "a") 0 (gs "t") 200)],
            maxSize := 1, currSize := 1, ttl := 10 } =
          { entries := [([], Entry.mk (gs "a") 0 (gs "t") 200)],
            maxSize := 1, currSize := 1, ttl := 10 } := by rfl
      rw [setEvictLoop, if_pos (by constructor <;> simp), hev, ih]
  exact ⟨hloop, by rfl⟩

/-! ## C1: the `..` rejection of `sanitizeRequestURI` -/

/-- C1 (counterexample): the claim says every input containing `".."`
anywhere — including only in the query — is rejected; but the code checks
only the parsed path, so `"/collect?a=.."` (with `".."` solely in the
query) is accepted and returned verbatim. -/
theorem c1_counterexample :
    sanitizeRequestURI (gs "/collect?a=..") = .ok (gs "/collect?a=..") ∧
    goContains (gs "/collect?a=..") (gs "..") = true := by
  constructor <;> rfl

/-- C1 (amended): `sanitizeRequestURI` rejects every input whose *parsed
path* contains `".."` (a `".."` occurring only in the query does not by
itself cause failure). -/
theorem sanitize_rejects_dotdot_path (s : GoStr) (u : GoURL)
    (hparse : urlParse s = some u)
    (hdots : goContains u.path (gs "..") = true) :
    ∃ e, sanitizeRequestURI s = .error e := by
  have hpne : u.path ≠ [] := by
    intro hnil
    rw [hnil] at hdots
    simp [goContains, gs, List.isEmpty] at hdots
  unfold sanitizeRequestURI
  rw [hparse]
  simp only [if_neg hpne]
  repeat' split
  all_goals exact ⟨_, rfl⟩

/-- C1 (witness): a concrete path-traversal input rejected through the
amended statement. -/
theorem sanitize_rejects_dotdot_path_witness :
    ∃ e, sanitizeRequestURI (gs "/a..b") = .error e :=
  sanitize_rejects_dotdot_path (gs "/a..b")
    { path := gs "/a..b" } (by rfl) (by rfl)

/-! ## C4 (counterexample): one oversized body breaks the size bound -/

/-- C4 (counterexample): the claim asserts `currSize ≤ maxSize` after
every `Set` with *no* precondition on the body length; storing a 2-byte
body into an empty cache with `maxSize = 1` returns normally with
`currSize = 2 > 1`. -/
theorem c4_counterexample :
    (cacheSet { entries := [], maxSize := 1, currSize := 0, ttl := 10 }
        (gs "k") (gs "ab") (gs "t") 200 0).map
      (fun c => decide (c.currSize ≤ c.maxSize)) = some false := by
  rfl

/-! ## C2: allow-list rejection in `ProxyRequest` -/

/-- C2: whenever the sanitizer accepts a request URI but the parsed path
is not on the allow-list, `ProxyRequest` returns a validation error,
performs no upstream call, and returns the cache exactly as it was. -/
theorem proxyRequest_rejects_disallowed_path
    (cfg : ConfigModel) (cache : Option CacheModel) (reqURI : GoStr)
    (headers : List (GoStr × GoStr)) (host : GoStr) (now : Int)
    (doClient : UpstreamReq → Except ClientErr UpstreamResp)
    (r : GoStr) (u : GoURL)
    (hs : sanitizeRequestURI reqURI = .ok r)
    (hp : urlParse r = some u)
    (ha : isAllowedPath u.path = false) :
    proxyRequest cfg cache reqURI headers host now doClient =
      { outcome := some (.error .validation), cache := cache,
        upstreamCalled := false, cacheSetCalled := false } := by
  unfold proxyRequest
  simp [hs, hp, ha]

/-- C2 (witness): the disallowed path `/admin` is rejected with a
validation error and an untouched (absent) cache. -/
theorem proxyRequest_rejects_disallowed_path_witness :
    proxyRequest cfgNoCache none (gs "/admin") [] [] 0 okClient =
      { outcome := some (.error .validation), cache := none,
        upstreamCalled := false, cacheSetCalled := false } :=
  proxyRequest_rejects_disallowed_path cfgNoCache none (gs "/admin") [] []
    0 okClient (gs "/admin") { path := gs "/admin" }
    (by rfl) (by rfl) (by rfl)

/-! ## C3: HTTP status mapping of engine errors -/

/-- C3 (counterexample): the claim says a validation rejection (here the
SSRF attack URI of the spec's scenario 6) is answered with status 400;
`Handler.Proxy` maps every engine error, validation errors included, to
status 502 with the fixed JSON body. -/
theorem c3_counterexample :
    handlerProxy cfgNoCache none
        (gs "http://169.254.169.254/latest/meta-data/") [] [] 0 okClient =
      some { status := 502, body := failedProxyBody, contentType := none } ∧
    (502 : Int) ≠ 400 := by
  constructor
  · rfl
  · decide

/-- C3 (amended): every engine error — validation, configuration,
upstream or proxy alike — is reported to the client as status 502 with
body `\x7b"error":"Failed to proxy request"\x7d`. -/
theorem handlerProxy_maps_engine_errors_to_502
    (cfg : ConfigModel) (cache : Option CacheModel) (reqURI : GoStr)
    (headers : List (GoStr × GoStr)) (host : GoStr) (now : Int)
    (doClient : UpstreamReq → Except ClientErr UpstreamResp) (e : GaxyErr)
    (h : (proxyRequest cfg cache (handlerTrim cfg reqURI) headers host now
        doClient).outcome = some (.error e)) :
    handlerProxy cfg cache reqURI headers host now doClient =
      some { status := 502, body := failedProxyBody, contentType := none } := by
  unfold handlerProxy
  simp [h]

/-- C3 (witness): the 502 mapping applied to a concrete validation
rejection. -/
theorem handlerProxy_maps_engine_errors_to_502_witness :
    handlerProxy cfgNoCache none (gs "/admin") [] [] 0 okClient =
      some { status := 502, body := failedProxyBody, contentType := none } :=
  handlerProxy_maps_engine_errors_to_502 cfgNoCache none (gs "/admin") []
    [] 0 okClient .validation (by rfl)

/-! ## C4: the size bound of `Cache.Set` -/

theorem sizeSum_cons (kv : GoStr × Entry) (l : List (GoStr × Entry)) :
    sizeSum (kv :: l) = (kv.2.data.length : Int) + sizeSum l := by
  simp [sizeSum]

theorem sizeSum_append (l1 l2 : List (GoStr × Entry)) :
    sizeSum (l1 ++ l2) = sizeSum l1 + sizeSum l2 := by
  simp [sizeSum]

theorem sizeSum_nil : sizeSum [] = 0 := rfl

theorem assocFind_none_iff (key : GoStr) (l : List (GoStr × Entry)) :
    assocFind key l = none ↔ key ∉ keysOf l := by
  induction l with
  | nil => simp [assocFind, keysOf]
  | cons kv rest ih =>
    obtain ⟨k, e⟩ := kv
    by_cases hk : k = key
    · subst hk
      simp [assocFind, keysOf]
    · simp [assocFind, hk, keysOf] at ih ⊢
      exact ⟨fun h => ⟨fun he => hk he.symm, (ih.mp h)⟩, fun h => ih.mpr h.2⟩

theorem assocErase_of_not_mem (key : GoStr) (l : List (GoStr × Entry))
    (h : key ∉ keysOf l) : assocErase key l = l := by
  induction l with
  | nil => rfl
  | cons kv rest ih =>
    obtain ⟨k, e⟩ := kv
    simp only [keysOf, List.map_cons, List.mem_cons, not_or] at h
    have hk : ¬ k = key := fun he => h.1 he.symm
    rw [assocErase, if_neg hk, ih (by simpa [keysOf] using h.2)]

theorem sizeSum_erase (key : GoStr) (l : List (GoStr × Entry)) (e : Entry)
    (hnd : (keysOf l).Nodup) (hf : assocFind key l = some e) :
    sizeSum (assocErase key l) = sizeSum l - (e.data.length : Int) := by
  induction l with
  | nil => simp [assocFind] at hf
  | cons kv rest ih =>
    obtain ⟨k, e'⟩ := kv
    simp only [keysOf, List.map_cons, List.nodup_cons] at hnd
    by_cases hk : k = key
    · subst hk
      simp [assocFind] at hf
      subst hf
      have hrest : assocErase k rest = rest :=
        assocErase_of_not_mem k rest (by simpa [keysOf] using hnd.1)
      simp [assocErase, hrest, sizeSum_cons]
    · simp only [assocFind, if_neg hk] at hf
      simp only [assocErase, if_neg hk, sizeSum_cons,
        ih (by simpa [keysOf] using hnd.2) hf]
      ring

theorem assocPut_of_find_some (key : GoStr) (v : Entry)
    (l : List (GoStr × Entry)) (e : Entry) (hf : assocFind key l = some e)
    (hnd : (keysOf l).Nodup) :
    keysOf (assocPut key v l) = keysOf l ∧
    sizeSum (assocPut key v l) =
      sizeSum l - (e.data.length : Int) + (v.data.length : Int) := by
  induction l with
  | nil => simp [assocFind] at hf
  | cons kv rest ih =>
    obtain ⟨k, e'⟩ := kv
    simp only [keysOf, List.map_cons, List.nodup_cons] at hnd
    by_cases hk : k = key
    · subst hk
      simp [assocFind] at hf
      subst hf
      constructor
      · simp [assocPut, keysOf]
      · simp [assocPut, sizeSum_cons]
        ring
    · simp only [assocFind, if_neg hk] at hf
      have := ih hf (by simpa [keysOf] using hnd.2)
      constructor
      · simp only [assocPut, if_neg hk, keysOf, List.map_cons]
        simpa [keysOf] using congrArg (List.cons k) this.1
      · simp only [assocPut, if_neg hk, sizeSum_cons, this.2]
        ring

theorem assocPut_of_find_none (key : GoStr) (v : Entry)
    (l : List (GoStr × Entry)) (hf : assocFind key l = none) :
    assocPut key v l = l ++ [(key, v)] := by
  induction l with
  | nil => rfl
  | cons kv rest ih =>
    obtain ⟨k, e'⟩ := kv
    by_cases hk : k = key
    · simp [assocFind, hk] at hf
    · simp only [assocFind, if_neg hk] at hf
      simp [assocPut, hk, ih hf]

theorem assocErase_sublist (key : GoStr) (l : List (GoStr × Entry)) :
    (assocErase key l).Sublist l := by
  induction l with
  | nil => simp [assocErase]
  | cons kv rest ih =>
    obtain ⟨k, e⟩ := kv
    by_cases hk : k = key
    · simp only [assocErase, if_pos hk]
      exact ih.trans (List.sublist_cons_self _ _)
    · simp only [assocErase, if_neg hk]
      exact ih.cons₂ _

theorem keysOf_nodup_erase (key : GoStr) (l : List (GoStr × Entry))
    (h : (keysOf l).Nodup) : (keysOf (assocErase key l)).Nodup :=
  List.Nodup.sublist ((assocErase_sublist key l).map _) h

theorem entry_len_nonneg (e : Entry) : (0 : Int) ≤ (e.data.length : Int) :=
  Int.ofNat_nonneg _

theorem evictOldest_wf (c : CacheModel) (h : cacheWF c) :
    cacheWF (evictOldest c) ∧ (evictOldest c).maxSize = c.maxSize ∧
    (evictOldest c).ttl = c.ttl := by
  obtain ⟨hsum, hnd⟩ := h
  unfold evictOldest
  by_cases hne : (oldestOf c.entries ([], 0, true)).1 ≠ []
  · simp only [if_pos hne]
    cases hf : assocFind (oldestOf c.entries ([], 0, true)).1 c.entries with
    | none =>
      have he := assocErase_of_not_mem _ c.entries
        ((assocFind_none_iff _ _).mp hf)
      refine ⟨⟨?_, ?_⟩, trivial, trivial⟩
      · simp [he, hsum]
      · simp only [he]
        exact hnd
    | some old =>
      refine ⟨⟨?_, ?_⟩, trivial, trivial⟩
      · simp [sizeSum_erase _ c.entries old hnd hf, hsum]
      · exact keysOf_nodup_erase _ _ hnd
  · simp only [if_neg hne]
    exact ⟨⟨hsum, hnd⟩, trivial, trivial⟩

theorem setEvictLoop_spec (ds : Int) (fuel : Nat) (c c1 : CacheModel)
    (hwf : cacheWF c) (h : setEvictLoop ds fuel c = some c1) :
    cacheWF c1 ∧ c1.maxSize = c.maxSize ∧ c1.ttl = c.ttl ∧
    (c1.currSize + ds ≤ c1.maxSize ∨ c1.entries = []) := by
  induction fuel generalizing c with
  | zero => simp [setEvictLoop] at h
  | succ n ih =>
    rw [setEvictLoop] at h
    by_cases hc : c.currSize + ds > c.maxSize ∧ c.entries ≠ []
    · rw [if_pos hc] at h
      obtain ⟨hwf', hmax, httl⟩ := evictOldest_wf c hwf
      obtain ⟨a, b, d, e⟩ := ih (evictOldest c) hwf' h
      exact ⟨a, b.trans hmax, d.trans httl, e⟩
    · rw [if_neg hc] at h
      obtain rfl : c = c1 := by injection h
      refine ⟨hwf, rfl, rfl, ?_⟩
      by_cases h1 : c.entries = []
      · exact Or.inr h1
      · have hng : ¬ c.currSize + ds > c.maxSize := fun hgt => hc ⟨hgt, h1⟩
        exact Or.inl (by omega)

theorem sizeSum_empty_eq_zero (c : CacheModel) (hwf : cacheWF c)
    (h : c.entries = []) : c.currSize = 0 := by
  rw [hwf.1, h]
  rfl

theorem cacheSet_size_bound (c : CacheModel) (key data ct : GoStr)
    (st now : Int) (c' : CacheModel)
    (hwf : cacheWF c) (hlen : (data.length : Int) ≤ c.maxSize)
    (hset : cacheSet c key data ct st now = some c') :
    cacheWF c' ∧ c'.currSize ≤ c.maxSize := by
  unfold cacheSet at hset
  simp only [Option.map_eq_some'] at hset
  obtain ⟨c1, hloop, hset⟩ := hset
  obtain ⟨hwf1, hmax1, _, hcond⟩ :=
    setEvictLoop_spec (data.length : Int) _ c c1 hwf hloop
  cases hf : assocFind key c1.entries with
  | some old =>
      simp only [hf] at hset
      subst hset
      obtain ⟨hkeys, hsum⟩ :=
        assocPut_of_find_some key
          { data := data, expiresAt := now + c1.ttl, contentType := ct,
            statusCode := st } c1.entries old hf hwf1.2
      refine ⟨⟨?_, ?_⟩, ?_⟩
      · simp only [hsum, hwf1.1]
      · simp only [hkeys]
        exact hwf1.2
      · rcases hcond with hle | hemp
        · have hold := entry_len_nonneg old
          simp only []
          omega
        · rw [hemp] at hf
          simp [assocFind] at hf
  | none =>
      simp only [hf] at hset
      subst hset
      have hput := assocPut_of_find_none key
        { data := data, expiresAt := now + c1.ttl, contentType := ct,
          statusCode := st } c1.entries hf
      refine ⟨⟨?_, ?_⟩, ?_⟩
      · simp only [hput, sizeSum_append, hwf1.1, sizeSum_cons, sizeSum_nil]
        ring
      · have hkeynot : key ∉ keysOf c1.entries :=
          (assocFind_none_iff key c1.entries).mp hf
        simp only [hput, keysOf, List.map_append, List.map_cons,
          List.map_nil, List.nodup_append]
        refine ⟨by simpa [keysOf] using hwf1.2, by simp, ?_⟩
        intro a ha hb
        simp at hb
        subst hb
        exact hkeynot (by simpa [keysOf] using ha)
      · rcases hcond with hle | hemp
        · simp only []
          omega
        · have h0 := sizeSum_empty_eq_zero c1 hwf1 hemp
          simp only []
          omega

/-- C4 (witness): storing a 2-byte body in the empty 100-byte cache
yields a well-formed state within the bound. -/
theorem cacheSet_size_bound_witness :
    cacheWF storedCache ∧ storedCache.currSize ≤ emptyCache.maxSize :=
  cacheSet_size_bound emptyCache (gs "k") (gs "ab") (gs "t") 200 0
    storedCache (by constructor <;> decide) (by decide) (by rfl)

/-! ## C9: the retry loop of `Client.Do` -/

theorem doLoop_run (oracle : Nat → Option ClientErr) (rd : Nat) :
    ∀ (i a fuel : Nat) (lastErr : Option ClientErr) (sl : List Nat),
    i < fuel →
    (∀ j, j < i → ∃ e, oracle (a + j) = some e ∧ shouldRetry e = true) →
    (oracle (a + i) = none ∨
      (∃ e, oracle (a + i) = some e ∧
        (shouldRetry e = false ∨ i + 1 = fuel))) →
    doLoop oracle rd fuel a lastErr sl =
      { attempts := a + i + 1,
        sleeps := sl.reverse ++
          ((List.range' a (i + 1)).filter (fun k => decide (0 < k))).map
            (fun n => rd * n),
        result := match oracle (a + i) with
          | none => .success
          | some e => .failure (some e) } := by
  intro i
  induction i with
  | zero =>
    intro a fuel lastErr sl hfuel _ hstop
    obtain ⟨f, rfl⟩ : ∃ f, fuel = f + 1 :=
      ⟨fuel - 1, by omega⟩
    rw [doLoop]
    rcases hstop with hnone | ⟨e, he, hcase⟩
    · simp only [Nat.add_zero] at hnone
      rw [List.range'_succ _ _ 1]
      by_cases ha : a > 0
      · simp [ha, hnone, List.filter, List.range']
      · have : a = 0 := by omega
        subst this
        simp [hnone, List.filter, List.range']
    · simp only [Nat.add_zero] at he
      rcases hcase with hret | hfone
      · rw [List.range'_succ _ _ 1]
        by_cases ha : a > 0
        · simp [ha, he, hret, List.filter, List.range']
        · have : a = 0 := by omega
          subst this
          simp [he, hret, List.filter, List.range']
      · obtain rfl : f = 0 := by omega
        rw [List.range'_succ _ _ 1]
        by_cases ha : a > 0
        · cases hr : shouldRetry e <;>
            simp [ha, he, hr, doLoop, List.filter, List.range']
        · have : a = 0 := by omega
          subst this
          cases hr : shouldRetry e <;>
            simp [he, hr, doLoop, List.filter, List.range']
  | succ i ih =>
    intro a fuel lastErr sl hfuel hbefore hstop
    obtain ⟨f, rfl⟩ : ∃ f, fuel = f + 1 := ⟨fuel - 1, by omega⟩
    obtain ⟨e0, he0, hr0⟩ := hbefore 0 (by omega)
    rw [doLoop]
    simp only [Nat.add_zero] at he0
    rw [he0]
    simp only [hr0, if_true]
    have hrec := ih (a + 1) f (some e0)
      (if a > 0 then rd * a :: sl else sl)
      (by omega)
      (fun j hj => by
        have := hbefore (j + 1) (by omega)
        simpa [Nat.add_assoc, Nat.add_comm 1 j] using this)
      (by
        have harith : a + 1 + i = a + (i + 1) := by omega
        rw [harith]
        rcases hstop with h | ⟨e, he, hc⟩
        · exact Or.inl h
        · refine Or.inr ⟨e, he, ?_⟩
          rcases hc with h1 | h2
          · exact Or.inl h1
          · exact Or.inr (by omega))
    rw [hrec]
    have harith : a + 1 + i = a + (i + 1) := by omega
    rw [harith]
    have hsl : (if a > 0 then rd * a :: sl else sl).reverse ++
        ((List.range' (a + 1) (i + 1)).filter
          (fun k => decide (0 < k))).map (fun n => rd * n) =
        sl.reverse ++
        ((List.range' a (i + 1 + 1)).filter
          (fun k => decide (0 < k))).map (fun n => rd * n) := by
      rw [List.range'_succ _ _ 1]
      by_cases ha : a > 0
      · simp [ha, List.filter]
      · have : a = 0 := by omega
        subst this
        simp [List.filter]
    rw [hsl]

theorem clientDo_retry_spec (oracle : Nat → Option ClientErr)
    (rd rc i : Nat)
    (hi : i ≤ rc)
    (hbefore : ∀ j, j < i → ∃ e, oracle j = some e ∧ shouldRetry e = true)
    (hstop : oracle i = none ∨
      ∃ e, oracle i = some e ∧ (shouldRetry e = false ∨ i = rc)) :
    (clientDo oracle rd rc).attempts = i + 1 ∧
    (clientDo oracle rd rc).attempts ≤ 1 + rc ∧
    (clientDo oracle rd rc).sleeps =
      (List.range' 1 i).map (fun n => rd * n) ∧
    (clientDo oracle rd rc).result =
      (match oracle i with
       | none => DoOutcome.success
       | some e => DoOutcome.failure (some e)) := by
  have hrun := doLoop_run oracle rd i 0 (rc + 1) none [] (by omega)
    (by simpa using hbefore)
    (by
      rcases hstop with h | ⟨e, he, hc⟩
      · exact Or.inl (by simpa using h)
      · refine Or.inr ⟨e, by simpa using he, ?_⟩
        rcases hc with h1 | h2
        · exact Or.inl h1
        · exact Or.inr (by omega))
  unfold clientDo
  rw [hrun]
  have hfilter : (List.range' 1 i 1).filter (fun k => decide (0 < k)) =
      List.range' 1 i 1 :=
    List.filter_eq_self.mpr (fun x hx => by
      have := (List.mem_range'_1.mp hx).1
      simp
      omega)
  refine ⟨by simp, by simp; omega, ?_, by simp⟩
  simp only [List.reverse_nil, List.nil_append, Nat.zero_add]
  rw [List.range'_succ _ _ 1]
  simp [List.filter, hfilter]

theorem clientDo_retry_spec_witness :
    (clientDo (fun j => if j = 0 then some .timeout else none) 5 2).attempts
        = 2 ∧
    (clientDo (fun j => if j = 0 then some .timeout else none) 5 2).attempts
        ≤ 1 + 2 ∧
    (clientDo (fun j => if j = 0 then some .timeout else none) 5 2).sleeps
        = (List.range' 1 1).map (fun n => 5 * n) ∧
    (clientDo (fun j => if j = 0 then some .timeout else none) 5 2).result
        = .success := by
  have h := clientDo_retry_spec (fun j => if j = 0 then some .timeout
      else none) 5 2 1
    (by omega)
    (by
      intro j hj
      obtain rfl : j = 0 := by omega
      exact ⟨.timeout, rfl, rfl⟩)
    (Or.inl rfl)
  simpa using h

theorem bucketFind_some_mem (key : GoStr) (l : List (GoStr × Bucket))
    (b : Bucket) (h : bucketFind key l = some b) : (key, b) ∈ l := by
  induction l with
  | nil => simp [bucketFind] at h
  | cons kv rest ih =>
    obtain ⟨k, b0⟩ := kv
    by_cases hk : k = key
    · subst hk
      simp [bucketFind] at h
      subst h
      exact List.mem_cons_self _ _
    · simp only [bucketFind, if_neg hk] at h
      exact List.mem_cons_of_mem _ (ih h)

theorem mem_bucketPut (key : GoStr) (v : Bucket)
    (l : List (GoStr × Bucket)) (kb : GoStr × Bucket)
    (h : kb ∈ bucketPut key v l) : kb = (key, v) ∨ kb ∈ l := by
  induction l with
  | nil => simpa [bucketPut] using h
  | cons kv rest ih =>
    obtain ⟨k, b0⟩ := kv
    by_cases hk : k = key
    · subst hk
      simp only [bucketPut, if_pos rfl] at h
      rcases List.mem_cons.mp h with rfl | hmem
      · exact Or.inl rfl
      · exact Or.inr (List.mem_cons_of_mem _ hmem)
    · simp only [bucketPut, if_neg hk] at h
      rcases List.mem_cons.mp h with rfl | hmem
      · exact Or.inr (List.mem_cons_self _ _)
      · rcases ih hmem with h1 | h2
        · exact Or.inl h1
        · exact Or.inr (List.mem_cons_of_mem _ h2)

theorem limiterWF_put (l : Limiter) (ip : GoStr) (t0 now : ℚ) (X : ℚ)
    (hwf : limiterWF l t0) (ht : t0 ≤ now)
    (h0 : 0 ≤ X) (h1 : X ≤ (l.burst : ℚ)) :
    limiterWF { l with buckets := bucketPut ip (Bucket.mk X now) l.buckets }
      now := by
  intro kb hkb
  rcases mem_bucketPut _ _ _ _ hkb with rfl | hmem
  · exact ⟨h0, h1, le_refl _⟩
  · obtain ⟨a, b, c⟩ := hwf kb hmem
    exact ⟨a, b, le_trans c ht⟩

/-- One `Allow` call preserves the bucket invariant (tokens within
`[0, burst]`, refill instants not in the future). -/
theorem allow_preserves (l : Limiter) (ip : GoStr) (t0 now : ℚ)
    (hrps : 0 ≤ l.rps) (hburst : 0 ≤ l.burst)
    (hwf : limiterWF l t0) (ht : t0 ≤ now) :
    limiterWF (allow l ip now).2 now ∧
    (allow l ip now).2.rps = l.rps ∧
    (allow l ip now).2.burst = l.burst := by
  have hrpsQ : (0 : ℚ) ≤ (l.rps : ℚ) := by exact_mod_cast hrps
  have hburstQ : (0 : ℚ) ≤ (l.burst : ℚ) := by exact_mod_cast hburst
  unfold allow
  cases hf : bucketFind ip l.buckets with
  | some b0 =>
    obtain ⟨ha, hb, hc⟩ := hwf (ip, b0) (bucketFind_some_mem _ _ _ hf)
    have hc' : b0.lastUpdate ≤ now := le_trans hc ht
    have helapsed : 0 ≤ (now - b0.lastUpdate) * (l.rps : ℚ) :=
      mul_nonneg (by linarith) hrpsQ
    dsimp only
    refine ⟨?_, by split_ifs <;> rfl, by split_ifs <;> rfl⟩
    split_ifs with h1 h2 <;>
      exact limiterWF_put l ip t0 now _ hwf ht (by linarith) (by linarith)
  | none =>
    have hzero : (now - now) * (l.rps : ℚ) = 0 := by ring
    dsimp only
    refine ⟨?_, by split_ifs <;> rfl, by split_ifs <;> rfl⟩
    split_ifs with h1 h2 <;>
      exact limiterWF_put l ip t0 now _ hwf ht (by linarith) (by linarith)

/-! ## C8: token range invariant of the rate limiter -/

theorem runAllows_preserves (calls : List (GoStr × ℚ)) :
    ∀ (l : Limiter) (t0 : ℚ), 0 ≤ l.rps → 0 ≤ l.burst →
    limiterWF l t0 → chrono t0 calls = true →
    limiterWF (runAllows l calls) (endTime t0 calls) ∧
    (runAllows l calls).burst = l.burst := by
  induction calls with
  | nil => intro l t0 _ _ hwf _; exact ⟨hwf, rfl⟩
  | cons c rest ih =>
    obtain ⟨ip, t⟩ := c
    intro l t0 hrps hburst hwf hchrono
    simp only [chrono, Bool.and_eq_true, decide_eq_true_eq] at hchrono
    obtain ⟨hwf', hrps', hburst'⟩ :=
      allow_preserves l ip t0 t hrps hburst hwf hchrono.1
    have := ih (allow l ip t).2 t (by rwa [hrps']) (by rwa [hburst'])
      hwf' hchrono.2
    exact ⟨this.1, this.2.trans hburst'⟩

/-- C8: starting from a fresh limiter with burst ≥ 1 and rate ≥ 1, after
any chronological sequence of `Allow` calls every bucket's token count
stays within `[0, burst]`. -/
theorem limiter_tokens_in_range (rps burst : Int) (t0 : ℚ)
    (calls : List (GoStr × ℚ))
    (h1 : 1 ≤ rps) (h2 : 1 ≤ burst) (hc : chrono t0 calls = true) :
    ∀ kb ∈ (runAllows (limiterNew rps burst) calls).buckets,
      0 ≤ (kb.2 : Bucket).tokens ∧ (kb.2 : Bucket).tokens ≤ (burst : ℚ) := by
  obtain ⟨hwf, hburst⟩ := runAllows_preserves calls (limiterNew rps burst)
    t0 (by simp [limiterNew]; omega) (by simp [limiterNew]; omega)
    (fun kb h => by simp [limiterNew] at h) hc
  intro kb hkb
  obtain ⟨a, b, _⟩ := hwf kb hkb
  refine ⟨a, ?_⟩
  have hb2 : (limiterNew rps burst).burst = burst := rfl
  rw [hburst, hb2] at b
  exact b

/-- C8 (witness): a concrete run with burst 2 and rate 1 leaves the
bucket at 0 tokens, inside the range. -/
theorem limiter_tokens_in_range_witness :
    chrono 0 [(gs "a", 0), (gs "a", 0), (gs "a", 1)] = true ∧
    (0 ≤ (Bucket.mk 0 1).tokens ∧
      (Bucket.mk 0 1).tokens ≤ ((2 : Int) : ℚ)) := by
  have hm : (gs "a", Bucket.mk 0 1) ∈
      (runAllows (limiterNew 1 2)
        [(gs "a", 0), (gs "a", 0), (gs "a", 1)]).buckets := by
    have hbk : (runAllows (limiterNew 1 2)
        [(gs "a", 0), (gs "a", 0), (gs "a", 1)]).buckets =
        [(gs "a", Bucket.mk 0 1)] := by
      norm_num [runAllows, allow, limiterNew, bucketFind, bucketPut]
    rw [hbk]
    exact List.mem_singleton.mpr rfl
  exact ⟨by decide,
    limiter_tokens_in_range 1 2 0 [(gs "a", 0), (gs "a", 0), (gs "a", 1)]
      (by decide) (by decide) (by decide) (gs "a", Bucket.mk 0 1) hm⟩

/-! ## C6: the cache-store condition of `ProxyRequest` -/

theorem cacheGet_entries (c : CacheModel) (key : GoStr) (now : Int) :
    (cacheGet c key now).2.entries = c.entries := by
  unfold cacheGet
  split
  · rfl
  · split <;> rfl

theorem proxyRequest_cache_store_iff
    (cfg : ConfigModel) (cache : Option CacheModel) (reqURI : GoStr)
    (headers : List (GoStr × GoStr)) (host : GoStr) (now : Int)
    (doClient : UpstreamReq → Except ClientErr UpstreamResp)
    (r : GoStr) (resp : RespModel)
    (hsvc : cache.isSome = cfg.cacheEnabled)
    (hs : sanitizeRequestURI reqURI = .ok r)
    (hup : (proxyRequest cfg cache reqURI headers host now
        doClient).upstreamCalled = true)
    (hok : (proxyRequest cfg cache reqURI headers host now
        doClient).outcome = some (.ok resp)) :
    ((proxyRequest cfg cache reqURI headers host now
        doClient).cacheSetCalled = true ↔
      (isCacheable cfg r = true ∧ resp.statusCode = 200)) ∧
    ((proxyRequest cfg cache reqURI headers host now
        doClient).cacheSetCalled = false →
      entriesOf (proxyRequest cfg cache reqURI headers host now
        doClient).cache = entriesOf cache) := by
  unfold proxyRequest at hup hok ⊢
  simp only [hs] at hup hok ⊢
  cases hpu : urlParse r with
  | none => simp [hpu] at hup
  | some u =>
    simp only [hpu] at hup hok ⊢
    by_cases hal : isAllowedPath u.path = true
    · simp only [hal, not_true, if_false, Bool.not_eq_true] at hup hok ⊢
      cases cache with
      | none =>
        have hen : cfg.cacheEnabled = false := by simpa using hsvc.symm
        have hic : isCacheable cfg r = false := by simp [isCacheable, hen]
        simp only [tryCacheGet] at hup hok ⊢
        cases horig : cfg.googleOrigin with
        | none => simp [horig] at hok
        | some origin =>
          simp only [horig] at hup hok ⊢
          cases hdo : doClient (UpstreamReq.mk origin.1 origin.2 u.path
              u.rawQuery headers (injectPairs cfg headers)
              cfg.skipParams) with
          | error e => simp [hdo] at hok
          | ok uresp =>
            simp only [hdo] at hup hok ⊢
            cases hbr : uresp.bodyResult with
            | none => simp [hbr] at hok
            | some body0 =>
              simp only [hbr] at hok ⊢
              constructor
              · simp [hic]
              · intro _
                simp [entriesOf]
      | some c =>
        have hen : cfg.cacheEnabled = true := by simpa using hsvc.symm
        by_cases hic : isCacheable cfg r = true
        · simp only [tryCacheGet, hic, if_true] at hup hok ⊢
          cases hcg : (cacheGet c (getCacheKey r) now).1 with
          | some entry => simp [hcg] at hup
          | none =>
            simp only [hcg] at hup hok ⊢
            cases horig : cfg.googleOrigin with
            | none => simp [horig] at hok
            | some origin =>
              simp only [horig] at hup hok ⊢
              cases hdo : doClient (UpstreamReq.mk origin.1 origin.2
                  u.path u.rawQuery headers (injectPairs cfg headers)
                  cfg.skipParams) with
              | error e => simp [hdo] at hok
              | ok uresp =>
                simp only [hdo] at hup hok ⊢
                cases hbr : uresp.bodyResult with
                | none => simp [hbr] at hok
                | some body0 =>
                  simp only [hbr] at hok ⊢
                  by_cases hst : uresp.statusCode = 200
                  · simp only [true_and] at hok ⊢
                    rw [if_pos hst] at hok ⊢
                    cases hset : cacheSet (cacheGet c (getCacheKey r) now).2
                        (getCacheKey r)
                        (if isJavaScript uresp.contentType = true then
                          List.foldl (fun b d => goReplaceAll b d
                            (host ++ cfg.routePfx)) body0 googleDomains
                        else body0)
                        uresp.contentType uresp.statusCode now with
                    | none => simp [hset] at hok
                    | some c2 =>
                      simp only [hset] at hok ⊢
                      simp only [Option.some.injEq, Except.ok.injEq] at hok
                      constructor
                      · constructor
                        · intro _
                          rw [← hok]
                          exact hst
                        · intro _
                          trivial
                      · intro hcontr
                        simp at hcontr
                  · simp only [true_and] at hok ⊢
                    rw [if_neg hst] at hok ⊢
                    simp only [Option.some.injEq, Except.ok.injEq] at hok
                    constructor
                    · constructor
                      · intro hfalse
                        simp at hfalse
                      · intro hh
                        have h2 := hh
                        rw [← hok] at h2
                        exact absurd h2 hst
                    · intro _
                      simp [entriesOf, cacheGet_entries]
        · simp only [tryCacheGet, hic, false_and, if_false] at hup hok ⊢
          cases horig : cfg.googleOrigin with
          | none => simp [horig] at hok
          | some origin =>
            simp only [horig] at hup hok ⊢
            cases hdo : doClient (UpstreamReq.mk origin.1 origin.2 u.path
                u.rawQuery headers (injectPairs cfg headers)
                cfg.skipParams) with
            | error e => simp [hdo] at hok
            | ok uresp =>
              simp only [hdo] at hup hok ⊢
              cases hbr : uresp.bodyResult with
              | none => simp [hbr] at hok
              | some body0 =>
                simp only [hbr] at hok ⊢
                constructor
                · simp [hic]
                · intro _
                  simp [entriesOf]
    · simp [hpu, hal] at hup

theorem proxyRequest_cache_store_iff_witness :
    ((proxyRequest cfgWithCache (some emptyCache) (gs "/analytics.js") []
        (gs "ex.com") 0 okClient).cacheSetCalled = true ↔
      (isCacheable cfgWithCache (gs "/analytics.js") = true ∧
        (RespModel.mk 200 (gs "body") (gs "text/javascript")).statusCode
          = 200)) ∧
    ((proxyRequest cfgWithCache (some emptyCache) (gs "/analytics.js") []
        (gs "ex.com") 0 okClient).cacheSetCalled = false →
      entriesOf (proxyRequest cfgWithCache (some emptyCache)
        (gs "/analytics.js") [] (gs "ex.com") 0 okClient).cache =
        entriesOf (some emptyCache)) :=
  proxyRequest_cache_store_iff cfgWithCache (some emptyCache)
    (gs "/analytics.js") [] (gs "ex.com") 0 okClient
    (gs "/analytics.js") (RespModel.mk 200 (gs "body") (gs "text/javascript"))
    (by rfl) (by rfl) (by decide) (by rfl)


/-! ## C7: fixed points of the sanitizer -/

theorem goContains_infix_iff (s sub : GoStr) :
    goContains s sub = true ↔ sub <:+: s := by
  induction s with
  | nil => simp [goContains, List.isEmpty_iff]
  | cons a t ih =>
    simp only [goContains, Bool.or_eq_true, List.isPrefixOf_iff_prefix, ih]
    rw [List.infix_cons_iff]

theorem goContains_infix_false (big small sub : GoStr)
    (hb : goContains big sub = false) (hinf : small <:+: big) :
    goContains small sub = false := by
  by_contra h
  have h1 : goContains small sub = true := by
    cases hc : goContains small sub
    · exact absurd hc h
    · rfl
  have := (goContains_infix_iff small sub).mp h1
  have := (goContains_infix_iff big sub).mpr (this.trans hinf)
  rw [this] at hb
  exact Bool.true_eq_false.mp hb

theorem goContains_single_iff (s : GoStr) (c : Char) :
    goContains s [c] = true ↔ c ∈ s := by
  rw [goContains_infix_iff]
  constructor
  · intro h
    exact h.subset (List.mem_singleton.mpr rfl)
  · intro h
    obtain ⟨l1, l2, rfl⟩ := List.append_of_mem h
    exact ⟨l1, l2, by simp⟩

theorem goCut_not_mem (s : GoStr) (c : Char) (h : c ∉ s) :
    goCut s c = (s, [], false) := by
  induction s with
  | nil => rfl
  | cons a t ih =>
    simp only [List.mem_cons, not_or] at h
    have hne : ¬ a = c := fun he => h.1 he.symm
    simp [goCut, hne, ih h.2]

theorem goCut_found (s : GoStr) (c : Char) (h : c ∈ s) :
    s = (goCut s c).1 ++ c :: (goCut s c).2.1 ∧ c ∉ (goCut s c).1 ∧
    (goCut s c).2.2 = true := by
  induction s with
  | nil => simp at h
  | cons a t ih =>
    by_cases ha : a = c
    · subst ha
      simp [goCut]
    · have ht : c ∈ t := by
        rcases List.mem_cons.mp h with h1 | h2
        · exact absurd h1.symm ha
        · exact h2
      obtain ⟨h1, h2, h3⟩ := ih ht
      refine ⟨?_, ?_, ?_⟩
      · simp only [goCut, if_neg ha]
        exact congrArg (a :: ·) h1
      · simp only [goCut, if_neg ha]
        simp only [List.mem_cons, not_or]
        exact ⟨fun he => ha he.symm, h2⟩
      · simp only [goCut, if_neg ha]
        exact h3

theorem goCut_append_not_mem (p q : GoStr) (c : Char) (h : c ∉ p) :
    goCut (p ++ q) c =
      (p ++ (goCut q c).1, (goCut q c).2.1, (goCut q c).2.2) := by
  induction p with
  | nil => simp [goCut]
  | cons a t ih =>
    simp only [List.mem_cons, not_or] at h
    have hne : ¬ a = c := fun he => h.1 he.symm
    simp [goCut, hne, ih h.2]

theorem goCut_append_mem (p q : GoStr) (c : Char) (h : c ∈ p) :
    goCut (p ++ q) c =
      ((goCut p c).1, (goCut p c).2.1 ++ q, true) := by
  induction p with
  | nil => simp at h
  | cons a t ih =>
    by_cases ha : a = c
    · subst ha
      simp [goCut]
    · have ht : c ∈ t := by
        rcases List.mem_cons.mp h with h1 | h2
        · exact absurd h1.symm ha
        · exact h2
      simp [goCut, ha, ih ht]

theorem unescapeGo_path_id (l : GoStr) (h : '%' ∉ l) :
    unescapeGo .path l = some l := by
  induction l with
  | nil => rfl
  | cons c t ih =>
    simp only [List.mem_cons, not_or] at h
    have hc : ¬ c = '%' := fun he => h.1 he.symm
    rw [unescapeGo.eq_def]
    dsimp only
    rw [if_neg hc, if_neg (by simp), ih h.2]
    rfl

theorem goCut_fst_isPrefix (s : GoStr) (c : Char) : (goCut s c).1 <+: s := by
  induction s with
  | nil => simp [goCut]
  | cons a t ih =>
    by_cases ha : a = c
    · simp [goCut, ha]
    · simp only [goCut, if_neg ha]
      exact (List.cons_prefix_cons).mpr ⟨rfl, ih⟩

theorem getSchemeGo_slash (t : GoStr) :
    getSchemeGo ('/' :: t) = some ([], '/' :: t) := by rfl

theorem goEndsWith_single (s : GoStr) (c : Char) :
    goEndsWith s [c] = true ↔ s.getLast? = some c := by
  simp only [goEndsWith, List.isSuffixOf_iff_suffix]
  constructor
  · rintro ⟨t, rfl⟩
    simp
  · intro h
    obtain ⟨t, rfl⟩ := (List.getLast?_eq_some_iff).mp h
    exact ⟨t, rfl⟩

theorem urlParse_slash (r r' : GoStr) (hr : r = '/' :: r')
    (hctl : containsCTLByte r = false)
    (hhash : goContains r (gs "#") = false)
    (hq : r.getLast? ≠ some '?')
    (hpr : goStartsWith r (gs "//") = false)
    (hpct : goContains r (gs "%") = false) :
    urlParse r = some
      { scheme := [], opq := [], host := [],
        path := (goCut r '?').1, rawQuery := (goCut r '?').2.1,
        forceQuery := false, fragment := [] } := by
  have hnohash : '#' ∉ r := fun hm => by
    have h1 : goContains r (gs "#") = true :=
      (goContains_single_iff r '#').mpr hm
    rw [h1] at hhash
    exact Bool.noConfusion hhash
  have hcut : goCut r '#' = (r, [], false) := goCut_not_mem r '#' hnohash
  have hscheme : getSchemeGo r = some ([], r) := by
    rw [hr]; exact getSchemeGo_slash r'
  have hew : goEndsWith r (gs "?") = false := by
    cases hcase : goEndsWith r (gs "?")
    · rfl
    · exact absurd ((goEndsWith_single r '?').mp hcase) hq
  have hrest : (goCut r '?').1 = '/' :: (goCut r' '?').1 := by
    rw [hr]
    simp [goCut]
  have hrestsw : goStartsWith (goCut r '?').1 (gs "/") = true := by
    rw [hrest]
    simp [goStartsWith, List.isPrefixOf]
  have hrestpr : goStartsWith (goCut r '?').1 (gs "//") = false := by
    cases hsw : goStartsWith (goCut r '?').1 (gs "//")
    · rfl
    · exfalso
      rw [hrest] at hsw
      have hpre : ('/' :: '/' :: []) <+: ('/' :: (goCut r' '?').1) :=
        List.isPrefixOf_iff_prefix.mp hsw
      have h1 : ('/' :: []) <+: (goCut r' '?').1 :=
        (List.cons_prefix_cons.mp hpre).2
      have h2 : ('/' :: []) <+: r' := h1.trans (goCut_fst_isPrefix r' '?')
      have h3 : goStartsWith r (gs "//") = true := by
        rw [hr]
        exact List.isPrefixOf_iff_prefix.mpr
          (List.cons_prefix_cons.mpr ⟨rfl, h2⟩)
      rw [h3] at hpr
      exact Bool.noConfusion hpr
  have hnopct : '%' ∉ (goCut r '?').1 := by
    intro hm
    have hmem : '%' ∈ r := ((goCut_fst_isPrefix r '?').isInfix.subset) hm
    have h1 : goContains r (gs "%") = true :=
      (goContains_single_iff r '%').mpr hmem
    rw [h1] at hpct
    exact Bool.noConfusion hpct
  have hun : unescapeGo .path (goCut r '?').1 = some (goCut r '?').1 :=
    unescapeGo_path_id _ hnopct
  have hne : r ≠ gs "*" := by
    rw [hr]
    intro hcontra
    have := List.head_eq_of_cons_eq hcontra
    exact absurd this (by decide)
  unfold urlParse
  rw [hcut]
  unfold parseMain
  dsimp only
  rw [if_neg (by simp [hctl]), if_neg hne, hscheme]
  dsimp only
  simp only [hew, Bool.false_eq_true, false_and, if_false]
  rw [if_neg (by simp [hrestsw])]
  unfold authorityAndPath
  rw [if_neg (by simp [hrestpr]), hun]
  rfl
theorem sanitize_ok_shape (s r : GoStr) (hs : sanitizeRequestURI s = .ok r) :
    ∃ p q, r = p ++ q ∧ goStartsWith p (gs "/") = true ∧
      goContains p (gs "..") = false ∧
      (q = [] ∨ ∃ q0, q0 ≠ [] ∧ q = '?' :: q0) := by
  unfold sanitizeRequestURI at hs
  repeat' split at hs
  all_goals try dsimp only at hs
  all_goals repeat' split at hs
  any_goals exact Except.noConfusion hs
  all_goals injection hs with h
  all_goals subst h
  all_goals first
    | exact ⟨_, _, rfl, not_not.mp (by assumption),
        by simpa using ‹¬ goContains _ (gs "..") = true›, .inl rfl⟩
    | exact ⟨_, _, rfl, not_not.mp (by assumption),
        by simpa using ‹¬ goContains _ (gs "..") = true›,
        .inr ⟨_, by assumption, rfl⟩⟩

/-- C7 (amended): an accepted output of `sanitizeRequestURI` that contains
no `%`, no `#`, no control byte, no `"://"` substring, does not start with
`"//"` and does not end in `?` is a fixed point: running the sanitizer on
it succeeds and returns it unchanged. -/
theorem sanitize_fixed_point (s r : GoStr)
    (hs : sanitizeRequestURI s = .ok r)
    (hctl : containsCTLByte r = false)
    (hhash : goContains r (gs "#") = false)
    (hpct : goContains r (gs "%") = false)
    (hcol : goContains r (gs "://") = false)
    (hsw2 : goStartsWith r (gs "//") = false)
    (hq : r.getLast? ≠ some '?') :
    sanitizeRequestURI r = .ok r := by
  obtain ⟨p, q, hr, hpsw, hpdd, hqd⟩ := sanitize_ok_shape s r hs
  obtain ⟨p0, hp⟩ : ∃ p0, p = '/' :: p0 := by
    cases p with
    | nil => exact absurd hpsw (by decide)
    | cons a t =>
      have hpre : (gs "/") <+: (a :: t) := List.isPrefixOf_iff_prefix.mp hpsw
      have ha : '/' = a := (List.cons_prefix_cons.mp hpre).1
      exact ⟨t, by rw [← ha]⟩
  have hr' : r = '/' :: (p0 ++ q) := by rw [hr, hp]; rfl
  have hkey : ((goCut r '?').1 ++
      (if (goCut r '?').2.1 ≠ [] then '?' :: (goCut r '?').2.1
       else ([] : GoStr)) = r) ∧ (goCut r '?').1 <+: p := by
    by_cases hm : '?' ∈ p
    · obtain ⟨hpeq, hnotin, -⟩ := goCut_found p '?' hm
      have hcutr : goCut r '?' =
          ((goCut p '?').1, (goCut p '?').2.1 ++ q, true) := by
        rw [hr]
        exact goCut_append_mem p q '?' hm
      have hrawne : (goCut r '?').2.1 ≠ [] := by
        rw [hcutr]
        intro hnil
        obtain ⟨h1, h2⟩ := List.append_eq_nil.mp hnil
        apply hq
        rw [hr, h2, hpeq, h1]
        simp
      constructor
      · rw [if_pos hrawne, hcutr]
        dsimp only
        rw [hr]
        conv_rhs => rw [hpeq]
        simp
      · rw [hcutr]
        exact goCut_fst_isPrefix p '?'
    · rcases hqd with hq0 | ⟨q0, hq0ne, hq0⟩
      · have hrm : '?' ∉ r := by
          rw [hr, hq0]
          simpa using hm
        have hcutr := goCut_not_mem r '?' hrm
        constructor
        · rw [hcutr]
          simp
        · rw [hcutr, hr, hq0]
          simp
      · have hcutr : goCut r '?' = (p, q0, true) := by
          rw [hr, hq0, goCut_append_not_mem p ('?' :: q0) '?' hm]
          simp [goCut]
        have hrawne : (goCut r '?').2.1 ≠ [] := by
          rw [hcutr]
          exact hq0ne
        constructor
        · rw [if_pos hrawne, hcutr]
          dsimp only
          rw [hr, hq0]
        · rw [hcutr]
  obtain ⟨hfix, hPp⟩ := hkey
  have hPdd : goContains (goCut r '?').1 (gs "..") = false :=
    goContains_infix_false p (goCut r '?').1 (gs "..") hpdd hPp.isInfix
  have hP : (goCut r '?').1 = '/' :: (goCut (p0 ++ q) '?').1 := by
    rw [hr']
    simp [goCut]
  have hPne : ¬ (goCut r '?').1 = [] := by
    rw [hP]
    simp
  have hPsw : goStartsWith (goCut r '?').1 (gs "/") = true := by
    rw [hP]
    simp [goStartsWith, List.isPrefixOf]
  have hparse := urlParse_slash r (p0 ++ q) hr' hctl hhash hq hsw2 hpct
  unfold sanitizeRequestURI
  rw [if_neg (by rw [hr']; simp), if_neg (by simp [hcol]),
    if_neg (by simp [hsw2]), hparse]
  dsimp only
  rw [if_neg (by simp), if_neg (by simp), if_neg hPne,
    if_neg (by simp [hPsw]), if_neg (by simp [hPdd])]
  exact congrArg Except.ok hfix

/-- C7 (counterexample): the claim says every accepted output is a fixed
point; but the sanitizer percent-decodes the path, so the accepted output
of `"/collect%25x"` is `"/collect%x"`, on which a second run fails inside
`url.Parse` (`%x` is not a valid escape). -/
theorem c7_counterexample :
    sanitizeRequestURI (gs "/collect%25x") = .ok (gs "/collect%x") ∧
    sanitizeRequestURI (gs "/collect%x") = .error .parseFail :=
  ⟨rfl, rfl⟩

/-- C7 (witness): a concrete accepted output that is a fixed point through
the amended statement. -/
theorem sanitize_fixed_point_witness :
    sanitizeRequestURI (gs "/collect?v=1") = .ok (gs "/collect?v=1") :=
  sanitize_fixed_point (gs "/collect?v=1") (gs "/collect?v=1")
    rfl rfl rfl rfl rfl rfl (by decide)

end Gaxy
